import Mathlib

/-!
Verification of the automaker dependency-graph view and authentication layer.

The development shallowly embeds:
- the graph-view callbacks of the UI component (feature filtering,
  dependency creation and deletion over the feature list);
- the dependency-resolver predicates consumed by those callbacks
  (existence check and cycle check), modelled from the specification of
  the resolver package;
- the server-side session validation and authentication middleware.

Features carry string ids; the dependency relation is the directed graph
with an edge dependency-to-dependent for every entry of a feature's
dependency list.
-/

namespace Automaker

/-- Status of a feature, as in the data model. -/
inductive FeatureStatus where
  | queued
  | running
  | completed
  | failed
  | stopped
deriving DecidableEq

/-- A feature: the unit of work.  Fields are the ones the embedded code
reads: `id`, `status`, `dependencies` (list of other feature ids) and the
optional `branchName` (none means the primary workspace). -/
structure Feature where
  id : String
  status : FeatureStatus
  dependencies : List String
  branchName : Option String
deriving DecidableEq

/-- Dependency list of the feature with the given id: the `dependencies`
field of the first feature found with that id, or `[]` when no such
feature exists (mirrors `features.find(f => f.id === id)?.dependencies`). -/
def depsOf (features : List Feature) (id : String) : List String :=
  match features.find? (fun f => f.id == id) with
  | some f => f.dependencies
  | none => []

/-- Modelled from the spec: `dependencyExists(graph, sourceId, targetId)` of
the dependency-resolver package (absent from the visible sources) is true
iff `sourceId` is a member of the dependency list of `targetId` (direct
edge only, not transitive). -/
def dependencyExists (features : List Feature) (sourceId targetId : String) : Bool :=
  decide (sourceId ∈ depsOf features targetId)

/-- One step of the depends-on relation: `x` directly depends on `y`. -/
def DependsOnStep (features : List Feature) (x y : String) : Prop :=
  y ∈ depsOf features x

/-- One dependency edge of the derived graph, oriented
dependency-to-dependent: there is an edge from `x` to `y` when `x` is a
member of the dependency list of `y`. -/
def EdgeStep (features : List Feature) (x y : String) : Prop :=
  x ∈ depsOf features y

/-- Acyclicity of the derived dependency graph: no node lies on a cycle of
any length (including self-loops). -/
def Acyclic (features : List Feature) : Prop :=
  ∀ x, ¬ Relation.TransGen (DependsOnStep features) x x

/-- Direct successors of a node under the depends-on relation, as a finite
set. -/
def depSuccs (features : List Feature) (x : String) : Finset String :=
  (depsOf features x).toFinset

/-- All ids appearing in any feature's dependency list. -/
def allDepIds (features : List Feature) : Finset String :=
  features.foldr (fun f acc => f.dependencies.toFinset ∪ acc) ∅

/-- One round of the seen-set reachability search: keep everything seen and
add the direct dependencies of every seen node. -/
def expandReach (features : List Feature) (v : Finset String) : Finset String :=
  v ∪ v.biUnion (fun x => depSuccs features x)

/-- Iterated rounds of the seen-set search. -/
def iterateReach (features : List Feature) : Nat → Finset String → Finset String
  | 0, v => v
  | Nat.succ n, v => iterateReach features n (expandReach features v)

/-- The set of ids reachable from `sourceId` by following dependency lists,
computed by a breadth-first seen-set search bounded by the node count of
the graph. -/
def reachableFrom (features : List Feature) (sourceId : String) : Finset String :=
  iterateReach features (insert sourceId (allDepIds features)).card {sourceId}

/-- Modelled from the spec: `wouldCreateCycle(graph, sourceId, targetId)` of
the dependency-resolver package (absent from the visible sources) simulates
adding the edge "targetId depends on sourceId" and answers whether the new
edge would close a cycle, i.e. whether `targetId` is already a transitive
dependency of `sourceId`.  Implemented as a forward reachability search
with a standard seen-set, bounded by node count. -/
def wouldCreateCircularDependency (features : List Feature) (sourceId targetId : String) : Bool :=
  decide (targetId ∈ reachableFrom features sourceId)

/-- The graph view's `handleCreateDependency(sourceId, targetId)` callback:
rejects self-dependencies, already-existing edges, cycle-creating edges and
missing target features; otherwise commits by appending `sourceId` to the
target feature's dependency list (the store update
`onUpdateFeature(targetId, {dependencies: [...currentDeps, sourceId]})`).
Returns the success flag together with the resulting feature list. -/
def handleCreateDependency (features : List Feature) (sourceId targetId : String) :
    Bool × List Feature :=
  if sourceId = targetId then
    (false, features)
  else if dependencyExists features sourceId targetId then
    (false, features)
  else if wouldCreateCircularDependency features sourceId targetId then
    (false, features)
  else
    match features.find? (fun f => f.id == targetId) with
    | none => (false, features)
    | some targetFeature =>
      (true, features.map (fun f =>
        if f.id = targetId then
          { f with dependencies := targetFeature.dependencies ++ [sourceId] }
        else f))

/-- The graph view's `onDeleteDependency(sourceId, targetId)` callback:
finds the target feature and removes every occurrence of `sourceId` from
its dependency list; does nothing when the target feature is absent. -/
def onDeleteDependency (features : List Feature) (sourceId targetId : String) : List Feature :=
  match features.find? (fun f => f.id == targetId) with
  | none => features
  | some targetFeature =>
    features.map (fun f =>
      if f.id = targetId then
        { f with dependencies := targetFeature.dependencies.filter (fun depId => depId != sourceId) }
      else f)

/-- JavaScript truthiness of an optional string: `undefined`/`null` and the
empty string are falsy. -/
def truthy : Option String → Bool
  | none => false
  | some s => !s.isEmpty

/-- The graph view's worktree filter: drops completed features; a feature
without a (truthy) branch name is shown only on the primary worktree; with
a branch name it is shown when the current branch matches, or, when the
current branch is not initialized, when the branch is the primary branch of
the project. -/
def filteredFeatures (features : List Feature)
    (currentWorktreePath currentWorktreeBranch projectPath : Option String)
    (isPrimaryWorktreeBranch : String → String → Bool) : List Feature :=
  features.filter (fun f =>
    if f.status = FeatureStatus.completed then
      false
    else if !(truthy f.branchName) then
      decide (currentWorktreePath = none)
    else if currentWorktreeBranch = none then
      if truthy projectPath then
        isPrimaryWorktreeBranch (projectPath.getD "") ((f.branchName).getD "")
      else false
    else
      (f.branchName).getD "" == currentWorktreeBranch.getD "")

/-- Applying a sequence of dependency-creation operations in order, each on
the feature list left by the previous one. -/
def applyCreateOps (features : List Feature) (ops : List (String × String)) : List Feature :=
  ops.foldl (fun fs op => (handleCreateDependency fs op.1 op.2).2) features

/-! ### Server-side sessions and authentication middleware -/

/-- A session record as stored in the session map. -/
structure Session where
  createdAt : Nat
  expiresAt : Nat
deriving DecidableEq

/-- The session store: association of tokens to session records. -/
abbrev SessionStore := List (String × Session)

/-- Removal of a token from the session store (`validSessions.delete`). -/
def eraseSession : SessionStore → String → SessionStore
  | [], _ => []
  | p :: ps, token =>
    if p.1 = token then eraseSession ps token else p :: eraseSession ps token

/-- Lookup of a token in the session store (`validSessions.get`). -/
def lookupSession (store : SessionStore) (token : String) : Option Session :=
  List.lookup token store

/-- Session lifetime: thirty days in milliseconds. -/
def sessionMaxAgeMs : Nat := 30 * 24 * 60 * 60 * 1000

/-- `createSession`: registers a fresh token valid for `sessionMaxAgeMs`
from the current time (`validSessions.set(token, ...)`). -/
def createSession (store : SessionStore) (now : Nat) (token : String) : SessionStore :=
  (token, { createdAt := now, expiresAt := now + sessionMaxAgeMs }) :: eraseSession store token

/-- `validateSession(token)`: true iff the token is stored and not expired;
an expired token is deleted from the store as a side effect.  Returns the
answer together with the resulting store. -/
def validateSession (store : SessionStore) (now : Nat) (token : String) : Bool × SessionStore :=
  match lookupSession store token with
  | none => (false, store)
  | some session =>
    if session.expiresAt < now then
      (false, eraseSession store token)
    else
      (true, store)

/-- Outcome of the authentication middleware: call `next()`, reply 403, or
reply 401. -/
inductive AuthOutcome where
  | allowed
  | forbidden (error : String)
  | unauthorized (error : String)
deriving DecidableEq

/-- The credentials the middleware reads from a request. -/
structure AuthRequest where
  headerApiKey : Option String
  headerSessionToken : Option String
  queryApiKey : Option String
  cookieSessionToken : Option String
deriving DecidableEq

/-- `authMiddleware`: checks, in order, the `X-API-Key` header, the
`X-Session-Token` header, the `apiKey` query parameter and the session
cookie; the first credential present (truthy) decides the outcome.
Session validation may delete an expired session, so the resulting store
is returned as well. -/
def authMiddleware (apiKey : String) (store : SessionStore) (now : Nat)
    (req : AuthRequest) : AuthOutcome × SessionStore :=
  if truthy req.headerApiKey then
    if req.headerApiKey.getD "" = apiKey then (AuthOutcome.allowed, store)
    else (AuthOutcome.forbidden "Invalid API key.", store)
  else if truthy req.headerSessionToken then
    let r := validateSession store now (req.headerSessionToken.getD "")
    if r.1 then (AuthOutcome.allowed, r.2)
    else (AuthOutcome.forbidden "Invalid or expired session token.", r.2)
  else if truthy req.queryApiKey then
    if req.queryApiKey.getD "" = apiKey then (AuthOutcome.allowed, store)
    else (AuthOutcome.forbidden "Invalid API key.", store)
  else if truthy req.cookieSessionToken then
    let r := validateSession store now (req.cookieSessionToken.getD "")
    if r.1 then (AuthOutcome.allowed, r.2)
    else (AuthOutcome.unauthorized "Authentication required.", r.2)
  else
    (AuthOutcome.unauthorized "Authentication required.", store)

/-! ### Correctness of the seen-set reachability search -/

lemma subset_expandReach (features : List Feature) (v : Finset String) :
    v ⊆ expandReach features v := by
  intro x hx
  exact Finset.mem_union_left _ hx

lemma subset_iterateReach (features : List Feature) :
    ∀ (n : Nat) (v : Finset String), v ⊆ iterateReach features n v := by
  intro n
  induction n with
  | zero => intro v; exact fun x hx => hx
  | succ n ih =>
    intro v
    exact fun x hx =>
      ih (expandReach features v) (subset_expandReach features v hx)

lemma iterateReach_succ_outer (features : List Feature) :
    ∀ (n : Nat) (v : Finset String),
      iterateReach features (n + 1) v = expandReach features (iterateReach features n v) := by
  intro n
  induction n with
  | zero => intro v; rfl
  | succ n ih =>
    intro v
    show iterateReach features (n + 1) (expandReach features v) = _
    rw [ih (expandReach features v)]
    rfl

lemma mem_allDepIds (features : List Feature) {f : Feature} {y : String}
    (hy : y ∈ f.dependencies) : f ∈ features → y ∈ allDepIds features := by
  induction features with
  | nil => intro hf; cases hf
  | cons g gs ih =>
    intro hf
    have hstep : allDepIds (g :: gs) = g.dependencies.toFinset ∪ allDepIds gs := rfl
    rw [hstep]
    rcases List.mem_cons.mp hf with hf | hf
    · subst hf
      exact Finset.mem_union_left _ (List.mem_toFinset.mpr hy)
    · exact Finset.mem_union_right _ (ih hf)

lemma depSuccs_subset_allDepIds (features : List Feature) (x : String) :
    depSuccs features x ⊆ allDepIds features := by
  intro y hy
  rw [depSuccs, List.mem_toFinset] at hy
  unfold depsOf at hy
  cases hfind : features.find? (fun f => f.id == x) with
  | none => rw [hfind] at hy; cases hy
  | some f =>
    rw [hfind] at hy
    exact mem_allDepIds features hy (List.mem_of_find?_eq_some hfind)

lemma expandReach_subset_univ (features : List Feature) {U v : Finset String}
    (hU : allDepIds features ⊆ U) (hv : v ⊆ U) : expandReach features v ⊆ U := by
  rw [expandReach]
  apply Finset.union_subset hv
  intro y hy
  rcases Finset.mem_biUnion.mp hy with ⟨x, _, hyx⟩
  exact hU (depSuccs_subset_allDepIds features x hyx)

lemma iterateReach_subset_univ (features : List Feature) {U : Finset String}
    (hU : allDepIds features ⊆ U) :
    ∀ (n : Nat) {v : Finset String}, v ⊆ U → iterateReach features n v ⊆ U := by
  intro n
  induction n with
  | zero => intro v hv; exact hv
  | succ n ih => intro v hv; exact ih (expandReach_subset_univ features hU hv)

lemma expandReach_fix_closed (features : List Feature) {v : Finset String}
    (h : expandReach features v = v) {x y : String}
    (hx : x ∈ v) (hy : y ∈ depsOf features x) : y ∈ v := by
  have : y ∈ expandReach features v :=
    Finset.mem_union_right _ (Finset.mem_biUnion.mpr ⟨x, hx, List.mem_toFinset.mpr hy⟩)
  rwa [h] at this

lemma iterateReach_fix (features : List Feature) {v : Finset String}
    (h : expandReach features v = v) : ∀ n, iterateReach features n v = v := by
  intro n
  induction n with
  | zero => rfl
  | succ n ih =>
    show iterateReach features n (expandReach features v) = v
    rw [h]
    exact ih

lemma iterateReach_add (features : List Feature) (m : Nat) :
    ∀ (n : Nat) (v : Finset String),
      iterateReach features (m + n) v = iterateReach features m (iterateReach features n v) := by
  intro n
  induction n with
  | zero => intro v; rfl
  | succ n ih =>
    intro v
    show iterateReach features (m + n + 1) v = _
    have h1 : m + n + 1 = (m + n) + 1 := rfl
    rw [h1]
    show iterateReach features (m + n) (expandReach features v) = _
    rw [ih (expandReach features v)]
    rfl

lemma card_iterateReach_of_no_fix (features : List Feature) {v : Finset String} :
    ∀ (n : Nat),
      (∀ k, k < n →
        expandReach features (iterateReach features k v) ≠ iterateReach features k v) →
      v.card + n ≤ (iterateReach features n v).card := by
  intro n
  induction n with
  | zero =>
    intro _
    show v.card + 0 ≤ v.card
    omega
  | succ n ih =>
    intro h
    have hprev : v.card + n ≤ (iterateReach features n v).card :=
      ih (fun k hk => h k (Nat.lt_succ_of_lt hk))
    have hne : expandReach features (iterateReach features n v) ≠ iterateReach features n v :=
      h n (Nat.lt_succ_self n)
    have hss : iterateReach features n v ⊂ expandReach features (iterateReach features n v) :=
      Finset.ssubset_iff_subset_ne.mpr
        ⟨subset_expandReach features _, fun heq => hne heq.symm⟩
    have hlt : (iterateReach features n v).card <
        (expandReach features (iterateReach features n v)).card :=
      Finset.card_lt_card hss
    rw [iterateReach_succ_outer]
    omega

lemma reachableFrom_closed (features : List Feature) (s : String) :
    expandReach features (reachableFrom features s) = reachableFrom features s := by
  classical
  set U : Finset String := insert s (allDepIds features) with hU
  have hsub : ({s} : Finset String) ⊆ U := by
    intro x hx
    rw [Finset.mem_singleton] at hx
    rw [hx, hU]
    exact Finset.mem_insert_self s _
  have hUsub : allDepIds features ⊆ U := by
    intro x hx
    exact Finset.mem_insert_of_mem hx
  by_contra hne
  have hnofix : ∀ k, k < U.card →
      expandReach features (iterateReach features k {s}) ≠ iterateReach features k {s} := by
    intro k hk hfix
    apply hne
    have hsplit : U.card = (U.card - k) + k := by omega
    have heq : reachableFrom features s = iterateReach features k {s} := by
      rw [reachableFrom, ← hU, hsplit, iterateReach_add]
      exact iterateReach_fix features hfix _
    rw [heq]
    exact hfix
  have hcard : ({s} : Finset String).card + U.card ≤
      (iterateReach features U.card {s}).card :=
    card_iterateReach_of_no_fix features U.card hnofix
  have hle : (iterateReach features U.card {s}).card ≤ U.card :=
    Finset.card_le_card (iterateReach_subset_univ features hUsub U.card hsub)
  rw [Finset.card_singleton] at hcard
  omega

lemma iterateReach_sound (features : List Feature) (s : String) :
    ∀ (n : Nat) (v : Finset String),
      (∀ x ∈ v, Relation.ReflTransGen (DependsOnStep features) s x) →
      ∀ x ∈ iterateReach features n v, Relation.ReflTransGen (DependsOnStep features) s x := by
  intro n
  induction n with
  | zero => intro v hv; exact hv
  | succ n ih =>
    intro v hv
    apply ih
    intro x hx
    rw [expandReach] at hx
    rcases Finset.mem_union.mp hx with hx | hx
    · exact hv x hx
    · rcases Finset.mem_biUnion.mp hx with ⟨w, hw, hxw⟩
      exact Relation.ReflTransGen.tail (hv w hw) (List.mem_toFinset.mp hxw)

lemma mem_reachableFrom_self (features : List Feature) (s : String) :
    s ∈ reachableFrom features s :=
  subset_iterateReach features _ {s} (Finset.mem_singleton_self s)

lemma reachableFrom_sound (features : List Feature) {s x : String}
    (hx : x ∈ reachableFrom features s) :
    Relation.ReflTransGen (DependsOnStep features) s x :=
  iterateReach_sound features s _ {s}
    (fun y hy => by
      rw [Finset.mem_singleton] at hy
      rw [hy]) x hx

lemma reachableFrom_complete (features : List Feature) {s x : String}
    (h : Relation.ReflTransGen (DependsOnStep features) s x) :
    x ∈ reachableFrom features s := by
  induction h with
  | refl => exact mem_reachableFrom_self features s
  | tail _ hstep ih =>
    exact expandReach_fix_closed features (reachableFrom_closed features s) ih hstep

lemma wouldCreateCircularDependency_iff (features : List Feature) (s t : String) :
    wouldCreateCircularDependency features s t = true ↔
      Relation.ReflTransGen (DependsOnStep features) s t := by
  rw [wouldCreateCircularDependency, decide_eq_true_iff]
  exact ⟨reachableFrom_sound features, reachableFrom_complete features⟩

/-! ### Effect of the committed update on the dependency relation -/

/-- Updating the dependency list of the features with a given id preserves
every id, so `find?` by id commutes with the update. -/
lemma find?_map_update (features : List Feature) (t : String) (nd : List String) (x : String) :
    (features.map (fun f =>
        if f.id = t then { f with dependencies := nd } else f)).find? (fun f => f.id == x) =
      (features.find? (fun f => f.id == x)).map (fun f =>
        if f.id = t then { f with dependencies := nd } else f) := by
  induction features with
  | nil => rfl
  | cons g gs ih =>
    have hid : (if g.id = t then { g with dependencies := nd } else g).id = g.id := by
      split <;> rfl
    by_cases hgx : g.id = x
    · rw [List.map_cons, List.find?_cons_of_pos, List.find?_cons_of_pos]
      · rfl
      · simpa using hgx
      · simpa [hid] using hgx
    · rw [List.map_cons, List.find?_cons_of_neg, List.find?_cons_of_neg]
      · exact ih
      · simpa using hgx
      · simpa [hid] using hgx

lemma id_of_find? {features : List Feature} {t : String} {tf : Feature}
    (hfind : features.find? (fun f => f.id == t) = some tf) : tf.id = t := by
  have := List.find?_some hfind
  simpa using this

/-- Dependency lists after committing a new list `nd` for the target id. -/
lemma depsOf_update (features : List Feature) {t : String} {tf : Feature} (nd : List String)
    (hfind : features.find? (fun f => f.id == t) = some tf) (x : String) :
    depsOf (features.map (fun f =>
        if f.id = t then { f with dependencies := nd } else f)) x =
      if x = t then nd else depsOf features x := by
  rw [depsOf, find?_map_update features t nd x]
  by_cases hx : x = t
  · subst hx
    rw [hfind]
    simp [id_of_find? hfind]
  · rw [if_neg hx, depsOf]
    cases hg : features.find? (fun f => f.id == x) with
    | none => rfl
    | some g =>
      have hgid : g.id = x := id_of_find? hg
      have : ¬ g.id = t := by rw [hgid]; exact hx
      simp [this]

/-- Single dependency step after the commit: either an old step, or the new
edge from the target to the source. -/
lemma dependsOnStep_update (features : List Feature) (s : String) {t : String} {tf : Feature}
    (hfind : features.find? (fun f => f.id == t) = some tf) (x y : String) :
    DependsOnStep (features.map (fun f =>
        if f.id = t then { f with dependencies := tf.dependencies ++ [s] } else f)) x y ↔
      DependsOnStep features x y ∨ (x = t ∧ y = s) := by
  rw [DependsOnStep, depsOf_update features (tf.dependencies ++ [s]) hfind x]
  by_cases hx : x = t
  · subst hx
    rw [if_pos rfl]
    rw [List.mem_append, List.mem_singleton]
    constructor
    · rintro (h | h)
      · left
        rw [DependsOnStep, depsOf, hfind]
        exact h
      · right; exact ⟨rfl, h⟩
    · rintro (h | ⟨-, h⟩)
      · left
        rw [DependsOnStep, depsOf, hfind] at h
        exact h
      · right; exact h
  · rw [if_neg hx]
    constructor
    · intro h; left; exact h
    · rintro (h | ⟨hxt, -⟩)
      · exact h
      · exact absurd hxt hx

/-- Any reflexive-transitive chain in the committed graph either already
existed, or splits at the new edge into an old chain to the target and an
old chain from the source. -/
lemma reflTransGen_update_split {D Dnew : String → String → Prop} {s t : String}
    (hD : ∀ x y, Dnew x y ↔ D x y ∨ (x = t ∧ y = s)) {a b : String}
    (h : Relation.ReflTransGen Dnew a b) :
    Relation.ReflTransGen D a b ∨
      (Relation.ReflTransGen D a t ∧ Relation.ReflTransGen D s b) := by
  induction h using Relation.ReflTransGen.head_induction_on with
  | refl => left; exact Relation.ReflTransGen.refl
  | head hstep _ ih =>
    rcases (hD _ _).mp hstep with hold | ⟨hat, hcs⟩
    · rcases ih with ih | ⟨iht, ihs⟩
      · left; exact Relation.ReflTransGen.head hold ih
      · right; exact ⟨Relation.ReflTransGen.head hold iht, ihs⟩
    · subst hat
      subst hcs
      rcases ih with ih | ⟨-, ihs⟩
      · right; exact ⟨Relation.ReflTransGen.refl, ih⟩
      · right; exact ⟨Relation.ReflTransGen.refl, ihs⟩

/-- Committing an edge whose cycle check came back negative preserves
acyclicity. -/
lemma acyclic_update (features : List Feature) {s t : String} {tf : Feature}
    (hfind : features.find? (fun f => f.id == t) = some tf)
    (hacyc : Acyclic features)
    (hnr : ¬ Relation.ReflTransGen (DependsOnStep features) s t) :
    Acyclic (features.map (fun f =>
      if f.id = t then { f with dependencies := tf.dependencies ++ [s] } else f)) := by
  intro x hcyc
  rcases Relation.TransGen.head'_iff.mp hcyc with ⟨y, hxy, hyx⟩
  have hD := dependsOnStep_update features s hfind
  rcases (hD x y).mp hxy with hold | ⟨hxt, hys⟩
  · rcases reflTransGen_update_split hD hyx with hback | ⟨hyt, hsx⟩
    · exact hacyc x (Relation.TransGen.head'_iff.mpr ⟨y, hold, hback⟩)
    · exact hnr (Relation.ReflTransGen.trans (Relation.ReflTransGen.tail hsx hold) hyt)
  · subst hxt
    subst hys
    rcases reflTransGen_update_split hD hyx with hback | ⟨hyt, -⟩
    · exact hnr hback
    · exact hnr hyt

/-- A single `handleCreateDependency` call preserves acyclicity: rejected
calls leave the feature list unchanged and committed calls passed the
cycle check. -/
lemma handleCreateDependency_preserves_acyclic (features : List Feature)
    (sourceId targetId : String) (hacyc : Acyclic features) :
    Acyclic (handleCreateDependency features sourceId targetId).2 := by
  rw [handleCreateDependency]
  split
  · exact hacyc
  · split
    · exact hacyc
    · split
      · exact hacyc
      · rename_i hcycle
        cases hfind : features.find? (fun f => f.id == targetId) with
        | none => exact hacyc
        | some tf =>
          show Acyclic (features.map _)
          apply acyclic_update features hfind hacyc
          intro hreach
          exact hcycle (by
            rw [wouldCreateCircularDependency_iff]
            exact hreach)

/-! ### Claims about dependency creation -/

/-- The empty feature set has an acyclic dependency graph. -/
lemma acyclic_nil : Acyclic ([] : List Feature) := by
  intro x hx
  rcases Relation.TransGen.head'_iff.mp hx with ⟨y, hxy, -⟩
  simp [DependsOnStep, depsOf] at hxy

/-- No feature lists its own id among its dependencies. -/
def noSelfDependency (features : List Feature) : Prop :=
  ∀ f ∈ features, f.id ∉ f.dependencies

/-- Characterization of a successful `handleCreateDependency` call: every
check passed, the target exists, and the result is the committed update. -/
lemma handleCreateDependency_success (features : List Feature) (s t : String)
    (h : (handleCreateDependency features s t).1 = true) :
    s ≠ t ∧ dependencyExists features s t = false ∧
      wouldCreateCircularDependency features s t = false ∧
      ∃ tf, features.find? (fun f => f.id == t) = some tf ∧
        (handleCreateDependency features s t).2 = features.map (fun f =>
          if f.id = t then { f with dependencies := tf.dependencies ++ [s] } else f) := by
  by_cases h1 : s = t
  · rw [handleCreateDependency, if_pos h1] at h
    cases h
  rw [handleCreateDependency, if_neg h1] at h
  by_cases h2 : dependencyExists features s t = true
  · rw [if_pos h2] at h
    cases h
  rw [if_neg h2] at h
  by_cases h3 : wouldCreateCircularDependency features s t = true
  · rw [if_pos h3] at h
    cases h
  rw [if_neg h3] at h
  cases hfind : features.find? (fun f => f.id == t) with
  | none =>
    rw [hfind] at h
    cases h
  | some tf =>
    refine ⟨h1, Bool.not_eq_true _ ▸ h2, Bool.not_eq_true _ ▸ h3, tf, rfl, ?_⟩
    rw [handleCreateDependency, if_neg h1, if_neg h2, if_neg h3, hfind]

/-- Claim C1: for every initially acyclic feature set and every sequence of
dependency-creation operations, the dependency graph derived from the
resulting feature set has no cycle of any length (rejected operations
leave the set unchanged, so this covers in particular every sequence of
individually succeeding calls). -/
theorem c1_acyclicity_preserved (features : List Feature) (ops : List (String × String))
    (hacyc : Acyclic features) : Acyclic (applyCreateOps features ops) := by
  induction ops generalizing features with
  | nil => exact hacyc
  | cons op ops ih =>
    exact ih _ (handleCreateDependency_preserves_acyclic features op.1 op.2 hacyc)

theorem c1_witness : Acyclic (applyCreateOps [] [("a", "b"), ("b", "a")]) :=
  c1_acyclicity_preserved [] [("a", "b"), ("b", "a")] acyclic_nil

/-- Claim C2: for every graph and every pair whose direct edge is not
already present, the cycle check returns true iff the source is already
reachable from the target along existing dependency edges (oriented
dependency-to-dependent), i.e. iff adding the edge "target depends on
source" closes a path from the target back to the source. -/
theorem c2_wouldCreateCycle_correct (features : List Feature) (s t : String)
    (_hnew : dependencyExists features s t = false) :
    wouldCreateCircularDependency features s t = true ↔
      Relation.ReflTransGen (EdgeStep features) t s := by
  rw [wouldCreateCircularDependency_iff]
  exact Relation.reflTransGen_swap.symm

theorem c2_witness :
    wouldCreateCircularDependency [⟨"b", FeatureStatus.queued, ["a"], none⟩] "b" "a" = true ↔
      Relation.ReflTransGen (EdgeStep [⟨"b", FeatureStatus.queued, ["a"], none⟩]) "a" "b" :=
  c2_wouldCreateCycle_correct [⟨"b", FeatureStatus.queued, ["a"], none⟩] "b" "a" (by decide)

/-- Claim C3: every rejected dependency-creation attempt (self-dependency,
already-existing edge, cycle, or missing target feature) returns false and
leaves the feature set entirely unchanged. -/
theorem c3_rejected_unchanged (features : List Feature) (s t : String)
    (h : s = t ∨ dependencyExists features s t = true ∨
      wouldCreateCircularDependency features s t = true ∨
      features.find? (fun f => f.id == t) = none) :
    (handleCreateDependency features s t).1 = false ∧
      (handleCreateDependency features s t).2 = features := by
  by_cases h1 : s = t
  · rw [handleCreateDependency, if_pos h1]
    exact ⟨rfl, rfl⟩
  rw [handleCreateDependency, if_neg h1]
  by_cases h2 : dependencyExists features s t = true
  · rw [if_pos h2]
    exact ⟨rfl, rfl⟩
  rw [if_neg h2]
  by_cases h3 : wouldCreateCircularDependency features s t = true
  · rw [if_pos h3]
    exact ⟨rfl, rfl⟩
  rw [if_neg h3]
  cases hfind : features.find? (fun f => f.id == t) with
  | none => exact ⟨rfl, rfl⟩
  | some tf =>
    rcases h with h | h | h | h
    · exact absurd h h1
    · exact absurd h h2
    · exact absurd h h3
    · rw [hfind] at h
      cases h

theorem c3_witness :
    ((handleCreateDependency [⟨"a", FeatureStatus.queued, [], none⟩] "a" "a").1 = false ∧
      (handleCreateDependency [⟨"a", FeatureStatus.queued, [], none⟩] "a" "a").2 =
        [⟨"a", FeatureStatus.queued, [], none⟩]) :=
  c3_rejected_unchanged [⟨"a", FeatureStatus.queued, [], none⟩] "a" "a" (Or.inl rfl)

/-- Claim C4: a dependency-creation attempt whose source equals its target
is rejected before any mutation, and consequently if no feature lists its
own id among its dependencies then none does after any
dependency-creation call. -/
theorem c4_self_dependency_rejected (features : List Feature) (s t : String) :
    handleCreateDependency features s s = (false, features) ∧
      (noSelfDependency features →
        noSelfDependency (handleCreateDependency features s t).2) := by
  constructor
  · rw [handleCreateDependency, if_pos rfl]
  · intro hself
    by_cases h1 : s = t
    · rw [handleCreateDependency, if_pos h1]
      exact hself
    rw [handleCreateDependency, if_neg h1]
    by_cases h2 : dependencyExists features s t = true
    · rw [if_pos h2]
      exact hself
    rw [if_neg h2]
    by_cases h3 : wouldCreateCircularDependency features s t = true
    · rw [if_pos h3]
      exact hself
    rw [if_neg h3]
    cases hfind : features.find? (fun f => f.id == t) with
    | none => exact hself
    | some tf =>
      intro f hf
      rcases List.mem_map.mp hf with ⟨g, hg, hgf⟩
      by_cases hgt : g.id = t
      · rw [if_pos hgt] at hgf
        subst hgf
        show g.id ∉ tf.dependencies ++ [s]
        intro hmem
        rcases List.mem_append.mp hmem with hmem | hmem
        · have htf : tf.id ∉ tf.dependencies :=
            hself tf (List.mem_of_find?_eq_some hfind)
          rw [id_of_find? hfind] at htf
          rw [hgt] at hmem
          exact htf hmem
        · rw [List.mem_singleton] at hmem
          rw [hgt] at hmem
          exact h1 hmem.symm
      · rw [if_neg hgt] at hgf
        subst hgf
        exact hself g hg

theorem c4_witness :
    handleCreateDependency [] "x" "x" = (false, ([] : List Feature)) ∧
      noSelfDependency (handleCreateDependency [] "x" "y").2 :=
  ⟨(c4_self_dependency_rejected [] "x" "y").1,
    (c4_self_dependency_rejected [] "x" "y").2 (fun f hf => absurd hf (List.not_mem_nil f))⟩

/-- Claim C5: a successful dependency-creation call sets the target's
dependency list to exactly its previous list with the source appended, so
afterwards the direct edge exists, and if the previous list had no
duplicates neither has the new one. -/
theorem c5_success_adds_edge (features : List Feature) (s t : String)
    (h : (handleCreateDependency features s t).1 = true) :
    depsOf (handleCreateDependency features s t).2 t = depsOf features t ++ [s] ∧
      dependencyExists (handleCreateDependency features s t).2 s t = true ∧
      ((depsOf features t).Nodup → (depsOf (handleCreateDependency features s t).2 t).Nodup) := by
  obtain ⟨h1, h2, h3, tf, hfind, heq⟩ := handleCreateDependency_success features s t h
  have hdepst : depsOf features t = tf.dependencies := by rw [depsOf, hfind]
  have hdeps := depsOf_update features (tf.dependencies ++ [s]) hfind
  refine ⟨?_, ?_, ?_⟩
  · rw [heq, hdeps t, if_pos rfl, hdepst]
  · rw [dependencyExists, heq, hdeps t, if_pos rfl]
    simp
  · intro hnd
    rw [heq, hdeps t, if_pos rfl]
    have hs : s ∉ tf.dependencies := by
      intro hmem
      rw [dependencyExists, hdepst, decide_eq_false_iff_not] at h2
      exact h2 hmem
    rw [hdepst] at hnd
    exact List.Nodup.append hnd (List.nodup_singleton s)
      (fun a ha ha2 => hs (List.mem_singleton.mp ha2 ▸ ha))

theorem c5_witness :
    ((handleCreateDependency [⟨"a", FeatureStatus.queued, [], none⟩,
        ⟨"b", FeatureStatus.queued, [], none⟩] "a" "b").1 = true) ∧
    depsOf (handleCreateDependency [⟨"a", FeatureStatus.queued, [], none⟩,
        ⟨"b", FeatureStatus.queued, [], none⟩] "a" "b").2 "b" =
      depsOf [⟨"a", FeatureStatus.queued, [], none⟩,
        ⟨"b", FeatureStatus.queued, [], none⟩] "b" ++ ["a"] :=
  ⟨by decide,
    (c5_success_adds_edge [⟨"a", FeatureStatus.queued, [], none⟩,
      ⟨"b", FeatureStatus.queued, [], none⟩] "a" "b" (by decide)).1⟩

/-! ### Claims about dependency deletion and the worktree filter -/

/-- Claim C6: deleting a dependency updates only the target feature,
removes every occurrence of the source id from its dependency list while
keeping every other entry with its multiplicity, and never deletes the
target feature itself; features at positions whose id differs from the
target are untouched. -/
theorem c6_delete_dependency_frame (features : List Feature) (s t : String) (tf : Feature)
    (hfind : features.find? (fun f => f.id == t) = some tf) :
    (onDeleteDependency features s t).length = features.length ∧
      (∀ (i : Nat) (hi : i < features.length) (hi2 : i < (onDeleteDependency features s t).length),
        (features.get ⟨i, hi⟩).id ≠ t →
          (onDeleteDependency features s t).get ⟨i, hi2⟩ = features.get ⟨i, hi⟩) ∧
      s ∉ depsOf (onDeleteDependency features s t) t ∧
      (∀ d, d ≠ s →
        (depsOf (onDeleteDependency features s t) t).count d = (depsOf features t).count d) ∧
      (onDeleteDependency features s t).find? (fun f => f.id == t) ≠ none := by
  have hdel : onDeleteDependency features s t = features.map (fun f =>
      if f.id = t then
        { f with dependencies := tf.dependencies.filter (fun depId => depId != s) }
      else f) := by
    rw [onDeleteDependency, hfind]
  have hdeps := depsOf_update features (tf.dependencies.filter (fun depId => depId != s)) hfind
  have hdepst : depsOf features t = tf.dependencies := by rw [depsOf, hfind]
  refine ⟨?_, ?_, ?_, ?_, ?_⟩
  · rw [hdel, List.length_map]
  · intro i hi hi2 hne
    revert hi2
    rw [hdel]
    intro hi2
    simp only [List.get_eq_getElem] at hne ⊢
    rw [List.getElem_map, if_neg hne]
  · rw [hdel, hdeps t, if_pos rfl]
    intro hmem
    rcases List.mem_filter.mp hmem with ⟨-, hbad⟩
    simp at hbad
  · intro d hd
    rw [hdel, hdeps t, if_pos rfl, hdepst]
    rw [List.count_filter]
    simp [hd]
  · rw [hdel, find?_map_update features t _ t, hfind]
    intro hbad
    cases hbad

theorem c6_witness :
    "x" ∉ depsOf (onDeleteDependency [⟨"b", FeatureStatus.queued, ["x", "c", "x"], none⟩]
      "x" "b") "b" :=
  (c6_delete_dependency_frame [⟨"b", FeatureStatus.queued, ["x", "c", "x"], none⟩] "x" "b"
    ⟨"b", FeatureStatus.queued, ["x", "c", "x"], none⟩ rfl).2.2.1

/-- Claim C7: a non-completed feature without an assigned branch is in the
filtered feature set iff the current worktree is the primary workspace. -/
theorem c7_unassigned_branch_filter (features : List Feature)
    (cwp cwb pp : Option String) (isPrim : String → String → Bool) (f : Feature)
    (hmem : f ∈ features) (hst : f.status ≠ FeatureStatus.completed)
    (hbr : f.branchName = none) :
    f ∈ filteredFeatures features cwp cwb pp isPrim ↔ cwp = none := by
  rw [filteredFeatures, List.mem_filter]
  have hpred : (if f.status = FeatureStatus.completed then false
      else if !(truthy f.branchName) then decide (cwp = none)
      else if cwb = none then
        if truthy pp then isPrim (pp.getD "") ((f.branchName).getD "") else false
      else (f.branchName).getD "" == cwb.getD "") = decide (cwp = none) := by
    rw [if_neg hst, hbr]
    rfl
  rw [hpred]
  constructor
  · rintro ⟨-, hc⟩
    exact of_decide_eq_true hc
  · intro hc
    exact ⟨hmem, decide_eq_true hc⟩

theorem c7_witness :
    (⟨"a", FeatureStatus.queued, [], none⟩ : Feature) ∈
        filteredFeatures [⟨"a", FeatureStatus.queued, [], none⟩] none none none
          (fun _ _ => false) ↔ (none : Option String) = none :=
  c7_unassigned_branch_filter [⟨"a", FeatureStatus.queued, [], none⟩] none none none
    (fun _ _ => false) ⟨"a", FeatureStatus.queued, [], none⟩ (List.mem_singleton.mpr rfl)
    (by decide) rfl

/-- Claim C8: the filtered feature set never contains a completed feature,
whatever the worktree context. -/
theorem c8_no_completed_in_filtered (features : List Feature)
    (cwp cwb pp : Option String) (isPrim : String → String → Bool) (f : Feature)
    (h : f ∈ filteredFeatures features cwp cwb pp isPrim) :
    f.status ≠ FeatureStatus.completed := by
  rw [filteredFeatures, List.mem_filter] at h
  obtain ⟨-, hpred⟩ := h
  intro hc
  rw [if_pos hc] at hpred
  cases hpred

theorem c8_witness :
    (⟨"a", FeatureStatus.queued, [], none⟩ : Feature).status ≠ FeatureStatus.completed :=
  c8_no_completed_in_filtered [⟨"a", FeatureStatus.queued, [], none⟩] none none none
    (fun _ _ => false) ⟨"a", FeatureStatus.queued, [], none⟩ (by decide)

/-! ### Claims about sessions and the authentication middleware -/

lemma lookupSession_erase (store : SessionStore) (token : String) :
    lookupSession (eraseSession store token) token = none := by
  induction store with
  | nil => rfl
  | cons p ps ih =>
    obtain ⟨k, v⟩ := p
    show lookupSession
      (if k = token then eraseSession ps token else (k, v) :: eraseSession ps token) token = none
    by_cases hp : k = token
    · rw [if_pos hp]
      exact ih
    · rw [if_neg hp]
      have hbeq : (token == k) = false := beq_eq_false_iff_ne.mpr (fun he => hp he.symm)
      show List.lookup token ((k, v) :: eraseSession ps token) = none
      rw [List.lookup, hbeq]
      exact ih

lemma validateSession_of_lookup_none (store : SessionStore) (now : Nat) (token : String)
    (h : lookupSession store token = none) :
    validateSession store now token = (false, store) := by
  rw [validateSession, h]

lemma validateSession_of_expired (store : SessionStore) (now : Nat) (token : String)
    {sess : Session} (h : lookupSession store token = some sess)
    (hexp : sess.expiresAt < now) :
    validateSession store now token = (false, eraseSession store token) := by
  rw [validateSession, h]
  simp [hexp]

lemma validateSession_of_live (store : SessionStore) (now : Nat) (token : String)
    {sess : Session} (h : lookupSession store token = some sess)
    (hexp : ¬ sess.expiresAt < now) :
    validateSession store now token = (true, store) := by
  rw [validateSession, h]
  simp [hexp]

/-- Claim C9 (original statement) fails: a request with an empty
`X-API-Key` header value, which differs from the configured key, is not
rejected with 403 when it also carries a valid session token header,
because an empty header is falsy and the middleware falls through to the
next credential. -/
theorem c9_counterexample :
    (⟨some "", some "tok", none, none⟩ : AuthRequest).headerApiKey = some "" ∧
      "" ≠ "secret-key" ∧
      (validateSession [("tok", ⟨0, 100⟩)] 50 "tok").1 = true ∧
      (authMiddleware "secret-key" [("tok", ⟨0, 100⟩)] 50
        ⟨some "", some "tok", none, none⟩).1 = AuthOutcome.allowed := by
  refine ⟨rfl, ?_, rfl, rfl⟩
  decide

/-- Claim C9 (amended): for every request carrying a non-empty `X-API-Key`
header whose value does not equal the configured API key, the middleware
rejects the request with 403 "Invalid API key." and leaves the session
store unchanged, regardless of any other credential the request carries. -/
theorem c9_nonempty_wrong_api_key_rejected (apiKey : String) (store : SessionStore)
    (now : Nat) (req : AuthRequest) (v : String) (hv : req.headerApiKey = some v)
    (hne : v ≠ "") (hwrong : v ≠ apiKey) :
    authMiddleware apiKey store now req = (AuthOutcome.forbidden "Invalid API key.", store) := by
  have ht : truthy req.headerApiKey = true := by
    rw [hv, truthy]
    cases hb : v.isEmpty with
    | false => rfl
    | true => exact absurd ((String.isEmpty_iff v).mp hb) hne
  rw [authMiddleware, if_pos ht, hv, Option.getD_some, if_neg hwrong]

theorem c9_witness :
    authMiddleware "k" [] 0 ⟨some "w", some "tok", some "k", some "tok"⟩ =
      (AuthOutcome.forbidden "Invalid API key.", ([] : SessionStore)) :=
  c9_nonempty_wrong_api_key_rejected "k" [] 0 ⟨some "w", some "tok", some "k", some "tok"⟩
    "w" rfl (by decide) (by decide)

/-- Claim C10: session validation succeeds iff the token is stored and the
current time has not passed its expiry; an expired token is deleted, so
every later validation of that token fails; validating a valid or unknown
token leaves the store unchanged. -/
theorem c10_validateSession_spec (store : SessionStore) (now : Nat) (token : String) :
    ((validateSession store now token).1 = true ↔
        ∃ s, lookupSession store token = some s ∧ now ≤ s.expiresAt) ∧
      (∀ s, lookupSession store token = some s → s.expiresAt < now →
        (validateSession store now token).2 = eraseSession store token ∧
        ∀ now2, (validateSession (validateSession store now token).2 now2 token).1 = false) ∧
      ((validateSession store now token).1 = true →
        (validateSession store now token).2 = store) ∧
      (lookupSession store token = none →
        (validateSession store now token).1 = false ∧
        (validateSession store now token).2 = store) := by
  refine ⟨?_, ?_, ?_, ?_⟩
  · cases hl : lookupSession store token with
    | none =>
      rw [validateSession_of_lookup_none store now token hl]
      constructor
      · intro h
        cases h
      · rintro ⟨s, hs, -⟩
        cases hs
    | some sess =>
      by_cases hexp : sess.expiresAt < now
      · rw [validateSession_of_expired store now token hl hexp]
        constructor
        · intro h
          cases h
        · rintro ⟨s, hs, hle⟩
          cases hs
          omega
      · rw [validateSession_of_live store now token hl hexp]
        constructor
        · intro _
          exact ⟨sess, rfl, by omega⟩
        · intro _
          rfl
  · intro s hs hlt
    rw [validateSession_of_expired store now token hs hlt]
    refine ⟨rfl, ?_⟩
    intro now2
    rw [validateSession_of_lookup_none (eraseSession store token) now2 token
      (lookupSession_erase store token)]
  · intro h
    cases hl : lookupSession store token with
    | none =>
      rw [validateSession_of_lookup_none store now token hl]
    | some sess =>
      by_cases hexp : sess.expiresAt < now
      · rw [validateSession_of_expired store now token hl hexp] at h
        cases h
      · rw [validateSession_of_live store now token hl hexp]
  · intro hnone
    rw [validateSession_of_lookup_none store now token hnone]
    exact ⟨rfl, rfl⟩

theorem c10_witness :
    (validateSession (validateSession [("t", ⟨0, 5⟩)] 10 "t").2 0 "t").1 = false :=
  ((c10_validateSession_spec [("t", ⟨0, 5⟩)] 10 "t").2.1 ⟨0, 5⟩ rfl (by decide)).2 0

end Automaker
